import Mathlib

/-!
Shallow embedding of the WSN routing simulator (src/app.py).

Modelling conventions:
- Energies, thresholds and distances are rationals (the Python floats carry
  exact decimal constants here; no claim depends on float rounding).
- Python dict nodes become a `Node` structure.  The routing functions mutate
  node dicts in place through shared references; here every mutation goes
  through `debit_id`, which updates the node carrying a given id inside the
  state list (ids are unique in every population the program creates, see
  `create_nodes`).
- External primitives are oracles passed as arguments:
  `dst` models `math.dist` (its relevant contract, nonnegativity and
  `dst p p = 0`, appears as a hypothesis where a theorem needs it);
  `sample_fn` models `random.sample` (contract `SampleSpec`);
  `sensed_fn` models the per-node `random.uniform(0, 100)` draws of TEEN,
  indexed by node id.
-/

abbrev Pos : Type := ℚ × ℚ

abbrev Edge : Type := Pos × Pos

def WIDTH : ℕ := 100

def HEIGHT : ℕ := 100

def INITIAL_ENERGY : ℚ := 1.0

def TX_COST : ℚ := 0.02

def RX_COST : ℚ := 0.01

def BS_POS : Pos := (50, 115)

/-- A sensor node, from the dict literal in `create_nodes` (app.py:18-27). -/
structure Node where
  id : ℕ
  pos : Pos
  energy : ℚ
  alive : Bool
deriving DecidableEq, Repr

/-- Population factory (app.py:18-27).  The two `random.randint` draws per
node are modelled by the position oracle `pos_fn`. -/
def create_nodes (n : ℕ) (pos_fn : ℕ → Pos) : List Node :=
  (List.range n).map (fun i =>
    { id := i, pos := pos_fn i, energy := INITIAL_ENERGY, alive := true })

/-- Energy debit (app.py:30-34): if the node is alive, subtract the amount;
mark it dead when the resulting energy is ≤ 0.  No-op on a dead node. -/
def use_energy (n : Node) (amount : ℚ) : Node :=
  if n.alive then
    if n.energy - amount ≤ 0 then
      { n with energy := n.energy - amount, alive := false }
    else { n with energy := n.energy - amount }
  else n

/-- In-place mutation of the node object with the given id, seen through the
shared state list: Python routing code holds aliases into `nodes` and calls
`use_energy` on them; here the same debit is applied to the entry of the
state list carrying that id. -/
def debit_id (st : List Node) (i : ℕ) (amt : ℚ) : List Node :=
  st.map (fun m => if m.id = i then use_energy m amt else m)

/-- Direct routing (app.py:39-49): every alive node transmits straight to the
base station; it counts its packets and its edge only if it survives the
debit. -/
def direct_routing (dst : Pos → Pos → ℚ) (packets : ℕ) :
    List Node → List Node × List Edge × ℕ
  | [] => ([], [], 0)
  | n :: rest =>
    let t := direct_routing dst packets rest
    if n.alive then
      let n2 := use_energy n (TX_COST * (dst n.pos BS_POS / 50))
      if n2.alive then (n2 :: t.1, (n2.pos, BS_POS) :: t.2.1, t.2.2 + packets)
      else (n2 :: t.1, t.2.1, t.2.2)
    else (n :: t.1, t.2.1, t.2.2)

/-- Python `min(cluster_heads, key=...)`: first element attaining the minimal
key, `none` on the empty list (where Python would raise). -/
def minBy (f : Node → ℚ) : List Node → Option Node
  | [] => none
  | c :: rest =>
    match minBy f rest with
    | none => some c
    | some b => if f c ≤ f b then some c else some b

/-- Contract of `random.sample(xs, k)` for `k ≤ len(xs)`: the result has
exactly `k` elements drawn without replacement, i.e. it is a sub-permutation
of the population. -/
def SampleSpec (f : ℕ → List Node → List Node) : Prop :=
  ∀ k xs, k ≤ xs.length → (f k xs).length = k ∧ List.Subperm (f k xs) xs

/-- Body of the `for n in alive_nodes` loop of LEACH (app.py:62-73), acting on
the accumulated (state, paths, delivered) triple; `i` is the id of the alive
node the iteration reached (the loop reads the node object's current state,
modelled by the `find?`). -/
def leach_body (dst : Pos → Pos → ℚ) (cluster_heads : List Node) (packets : ℕ)
    (acc : List Node × List Edge × ℕ) (i : ℕ) : List Node × List Edge × ℕ :=
  match acc.1.find? (fun m => m.id == i) with
  | none => acc
  | some n =>
    if cluster_heads.any (fun c => c.id == n.id) then
      (debit_id acc.1 n.id (TX_COST * (dst n.pos BS_POS / 60)),
       acc.2.1 ++ [(n.pos, BS_POS)], acc.2.2 + packets)
    else
      match minBy (fun c => dst c.pos n.pos) cluster_heads with
      | none => acc
      | some ch =>
        (debit_id (debit_id acc.1 n.id (TX_COST * (dst n.pos ch.pos / 60)))
           ch.id (RX_COST * 0.4),
         acc.2.1 ++ [(n.pos, ch.pos)], acc.2.2)

/-- LEACH round (app.py:52-74).  `sample_fn` models `random.sample`. -/
def leach (dst : Pos → Pos → ℚ) (sample_fn : ℕ → List Node → List Node)
    (nodes : List Node) (packets : ℕ) : List Node × List Edge × ℕ :=
  let alive_nodes := nodes.filter (fun n => n.alive)
  if alive_nodes.isEmpty then (nodes, [], 0)
  else
    let num_ch := max 1 (alive_nodes.length / 10)
    let cluster_heads := sample_fn num_ch alive_nodes
    (alive_nodes.map (fun n => n.id)).foldl
      (leach_body dst cluster_heads packets) (nodes, [], 0)

/-- Stable insertion by ascending x-coordinate; a new element goes after all
elements with an equal key, matching Python's stable `sorted`. -/
def insertByX (n : Node) : List Node → List Node
  | [] => [n]
  | m :: rest => if n.pos.1 < m.pos.1 then n :: m :: rest else m :: insertByX n rest

/-- Python `sorted(key=lambda x: x["pos"][0])`: stable sort by x-coordinate. -/
def sortByX (l : List Node) : List Node :=
  l.foldl (fun acc n => insertByX n acc) []

/-- Consecutive pairs of the PEGASIS chain (`for i in range(len - 1)`),
taken on the sorted alive snapshot. -/
def chain_pairs : List Node → List (Node × Node)
  | a :: b :: rest => (a, b) :: chain_pairs (b :: rest)
  | _ => []

/-- PEGASIS round (app.py:77-95): chain the alive nodes by ascending x;
every consecutive pair exchanges one hop (transmit debit for the earlier
node, receive debit for the later), then the last chain node transmits to the
base station and contributes the round's packets unconditionally. -/
def pegasis (dst : Pos → Pos → ℚ) (nodes : List Node) (packets : ℕ) :
    List Node × List Edge × ℕ :=
  let alive_nodes := sortByX (nodes.filter (fun n => n.alive))
  let hops := chain_pairs alive_nodes
  let st := hops.foldl
    (fun s ab =>
      debit_id (debit_id s ab.1.id (TX_COST * (dst ab.1.pos ab.2.pos / 70)))
        ab.2.id (RX_COST * 0.4)) nodes
  let ps : List Edge := hops.map (fun ab => (ab.1.pos, ab.2.pos))
  match alive_nodes.getLast? with
  | none => (st, ps, 0)
  | some last =>
    (debit_id st last.id (TX_COST * (dst last.pos BS_POS / 60)),
     ps ++ [(last.pos, BS_POS)], 0 + packets)

/-- TEEN trigger condition (app.py:111): sensed value at least the hard
threshold, and sensed minus soft threshold nonnegative. -/
def teen_triggers (hard_th soft_th sensed : ℚ) : Bool :=
  decide (hard_th ≤ sensed) && decide (0 ≤ sensed - soft_th)

/-- TEEN round (app.py:98-118): each alive node draws a sensed value
(`sensed_fn` indexed by node id models the `random.uniform(0, 100)` draw);
a triggered node pays the direct-to-base debit and counts packets and edge
only if still alive afterwards. -/
def teen (dst : Pos → Pos → ℚ) (hard_th soft_th : ℚ) (sensed_fn : ℕ → ℚ)
    (packets : ℕ) : List Node → List Node × List Edge × ℕ
  | [] => ([], [], 0)
  | n :: rest =>
    let t := teen dst hard_th soft_th sensed_fn packets rest
    if n.alive then
      if teen_triggers hard_th soft_th (sensed_fn n.id) then
        let n2 := use_energy n (TX_COST * (dst n.pos BS_POS / 55))
        if n2.alive then (n2 :: t.1, (n2.pos, BS_POS) :: t.2.1, t.2.2 + packets)
        else (n2 :: t.1, t.2.1, t.2.2)
      else (n :: t.1, t.2.1, t.2.2)
    else (n :: t.1, t.2.1, t.2.2)

inductive Protocol
  | direct | leach | pegasis | teen
deriving DecidableEq, Repr

/-- One round of the selected protocol (the dispatch in app.py:173-180). -/
def run_round (proto : Protocol) (dst : Pos → Pos → ℚ)
    (sample_fn : ℕ → List Node → List Node) (hard_th soft_th : ℚ)
    (sensed_fn : ℕ → ℚ) (nodes : List Node) (packets : ℕ) :
    List Node × List Edge × ℕ :=
  match proto with
  | .direct => direct_routing dst packets nodes
  | .leach => leach dst sample_fn nodes packets
  | .pegasis => pegasis dst nodes packets
  | .teen => teen dst hard_th soft_th sensed_fn packets nodes

/-- Number of dead nodes, `sum(not n["alive"] for n in nodes)` (app.py:183). -/
def dead_count (nodes : List Node) : ℕ :=
  (nodes.filter (fun n => !n.alive)).length

/-- Total residual energy, `sum(max(n["energy"], 0) ...)` (app.py:184). -/
def total_residual_energy (nodes : List Node) : ℚ :=
  (nodes.map (fun n => max n.energy 0)).sum

/-- The node collection after `k` rounds of the simulation loop
(app.py:172-180), with the per-round step as a function of the round index. -/
def sim_states (step : ℕ → List Node → List Node × List Edge × ℕ)
    (init : List Node) : ℕ → List Node
  | 0 => init
  | k + 1 => (step k (sim_states step init k)).1

structure SimResult where
  nodes : List Node
  paths : List Edge
  dead_series : List ℕ
  energy_series : List ℚ
  delivered_total : ℕ
deriving DecidableEq, Repr

/-- The Single Protocol simulation loop (app.py:167-184): run `rounds` rounds,
threading the node set, accumulating the delivered total and the per-round
dead-count and residual-energy series; the returned paths are the last
round's. -/
def run_sim (step : ℕ → List Node → List Node × List Edge × ℕ)
    (rounds : ℕ) (init : List Node) : SimResult where
  nodes := sim_states step init rounds
  paths :=
    match rounds with
    | 0 => []
    | r + 1 => (step r (sim_states step init r)).2.1
  dead_series :=
    (List.range rounds).map (fun k => dead_count (sim_states step init (k + 1)))
  energy_series :=
    (List.range rounds).map
      (fun k => total_residual_energy (sim_states step init (k + 1)))
  delivered_total :=
    ((List.range rounds).map
      (fun k => (step k (sim_states step init k)).2.2)).sum

/-- Full single-protocol simulation (app.py:167-184); per-round oracles are
indexed by the round number. -/
def run_simulation (proto : Protocol) (dst : Pos → Pos → ℚ)
    (sample_fns : ℕ → ℕ → List Node → List Node) (hard_th soft_th : ℚ)
    (sensed_fns : ℕ → ℕ → ℚ) (rounds packets : ℕ) (init : List Node) :
    SimResult :=
  run_sim
    (fun r ns =>
      run_round proto dst (sample_fns r) hard_th soft_th (sensed_fns r) ns packets)
    rounds init

/-- The state after `k` rounds of a given protocol. -/
def protocol_states (proto : Protocol) (dst : Pos → Pos → ℚ)
    (sample_fns : ℕ → ℕ → List Node → List Node) (hard_th soft_th : ℚ)
    (sensed_fns : ℕ → ℕ → ℚ) (packets : ℕ) (init : List Node) (k : ℕ) :
    List Node :=
  sim_states
    (fun r ns =>
      run_round proto dst (sample_fns r) hard_th soft_th (sensed_fns r) ns packets)
    init k

/-- Node `b` evolves to node `a` by a finite sequence of nonnegative energy
debits: the only way any routing code ever touches a node. -/
def DebitReach (a b : Node) : Prop :=
  ∃ l : List ℚ, (∀ x ∈ l, 0 ≤ x) ∧ a = l.foldl use_energy b

/-- The output node list of a round evolves pointwise from the input list by
energy debits alone. -/
def RoundRel (out inp : List Node) : Prop :=
  List.Forall₂ DebitReach out inp

/-! ### Basic facts about the energy debit operation -/

theorem use_energy_dead {n : Node} (h : n.alive = false) (amt : ℚ) :
    use_energy n amt = n := by
  simp [use_energy, h]

theorem use_energy_id (n : Node) (amt : ℚ) : (use_energy n amt).id = n.id := by
  unfold use_energy
  split <;> [skip; rfl]
  split <;> rfl

theorem use_energy_pos (n : Node) (amt : ℚ) : (use_energy n amt).pos = n.pos := by
  unfold use_energy
  split <;> [skip; rfl]
  split <;> rfl

theorem use_energy_energy_le {amt : ℚ} (h : 0 ≤ amt) (n : Node) :
    (use_energy n amt).energy ≤ n.energy := by
  unfold use_energy
  split
  · split <;> simpa using h
  · exact le_refl _

theorem use_energy_alive_mono {n : Node} {amt : ℚ}
    (h : (use_energy n amt).alive = true) : n.alive = true := by
  by_cases ha : n.alive = true
  · exact ha
  · rw [use_energy_dead (by simpa using ha)] at h
    exact h

/-! ### Facts about `DebitReach` -/

theorem debitReach_refl (n : Node) : DebitReach n n :=
  ⟨[], by simp, rfl⟩

theorem debitReach_trans {a b c : Node} (h1 : DebitReach a b)
    (h2 : DebitReach c a) : DebitReach c b := by
  obtain ⟨l1, hl1, e1⟩ := h1
  obtain ⟨l2, hl2, e2⟩ := h2
  refine ⟨l1 ++ l2, ?_, ?_⟩
  · intro x hx
    rcases List.mem_append.mp hx with h | h
    · exact hl1 x h
    · exact hl2 x h
  · rw [List.foldl_append, ← e1, ← e2]

theorem DebitReach.debit {amt : ℚ} (h : 0 ≤ amt) (n : Node) :
    DebitReach (use_energy n amt) n :=
  ⟨[amt], by simpa using h, rfl⟩

theorem foldl_use_energy_facts : ∀ (l : List ℚ) (a : Node),
    (l.foldl use_energy a).id = a.id ∧ (l.foldl use_energy a).pos = a.pos ∧
    ((∀ x ∈ l, 0 ≤ x) → (l.foldl use_energy a).energy ≤ a.energy) ∧
    ((l.foldl use_energy a).alive = true → a.alive = true) ∧
    (a.alive = false → l.foldl use_energy a = a)
  | [], a => ⟨rfl, rfl, fun _ => le_refl _, fun h => h, fun _ => rfl⟩
  | amt :: l, a => by
    obtain ⟨h1, h2, h3, h4, h5⟩ := foldl_use_energy_facts l (use_energy a amt)
    refine ⟨?_, ?_, ?_, ?_, ?_⟩
    · rw [List.foldl_cons, h1, use_energy_id]
    · rw [List.foldl_cons, h2, use_energy_pos]
    · intro hnn
      rw [List.foldl_cons]
      refine le_trans (h3 ?_) (use_energy_energy_le ?_ a)
      · intro x hx; exact hnn x (List.mem_cons_of_mem _ hx)
      · exact hnn amt (List.mem_cons_self amt l)
    · intro h
      rw [List.foldl_cons] at h
      exact use_energy_alive_mono (h4 h)
    · intro h
      have hu : use_energy a amt = a := use_energy_dead h amt
      have h5x := h5 (by rw [hu]; exact h)
      rw [hu] at h5x
      rw [List.foldl_cons, hu]
      exact h5x

theorem DebitReach.id_eq {a b : Node} (h : DebitReach a b) : a.id = b.id := by
  obtain ⟨l, _, e⟩ := h
  rw [e]; exact (foldl_use_energy_facts l b).1

theorem DebitReach.pos_eq {a b : Node} (h : DebitReach a b) : a.pos = b.pos := by
  obtain ⟨l, _, e⟩ := h
  rw [e]; exact (foldl_use_energy_facts l b).2.1

theorem DebitReach.energy_le {a b : Node} (h : DebitReach a b) :
    a.energy ≤ b.energy := by
  obtain ⟨l, hl, e⟩ := h
  rw [e]; exact (foldl_use_energy_facts l b).2.2.1 hl

theorem DebitReach.alive_mono {a b : Node} (h : DebitReach a b)
    (ha : a.alive = true) : b.alive = true := by
  obtain ⟨l, _, e⟩ := h
  rw [e] at ha; exact (foldl_use_energy_facts l b).2.2.2.1 ha

theorem DebitReach.dead_fixed {a b : Node} (h : DebitReach a b)
    (hb : b.alive = false) : a = b := by
  obtain ⟨l, _, e⟩ := h
  rw [e]; exact (foldl_use_energy_facts l b).2.2.2.2 hb

/-! ### Facts about `RoundRel` -/

theorem roundRel_refl : ∀ l : List Node, RoundRel l l
  | [] => List.Forall₂.nil
  | _ :: rest => List.Forall₂.cons (debitReach_refl _) (roundRel_refl rest)

theorem roundRel_trans {a b c : List Node} (h1 : RoundRel a b)
    (h2 : RoundRel c a) : RoundRel c b := by
  induction h1 generalizing c with
  | nil =>
    cases h2
    exact List.Forall₂.nil
  | cons hd tl ih =>
    cases h2 with
    | cons hd2 tl2 => exact List.Forall₂.cons (debitReach_trans hd hd2) (ih tl2)

theorem RoundRel.length_eq {a b : List Node} (h : RoundRel a b) :
    a.length = b.length :=
  List.Forall₂.length_eq h

theorem RoundRel.get {xs ys : List Node} (h : RoundRel xs ys) :
    ∀ (i : ℕ) (a b : Node), xs[i]? = some a → ys[i]? = some b → DebitReach a b := by
  induction h with
  | nil => intro i a b h1 _; simp at h1
  | cons hd tl ih =>
    intro i a b h1 h2
    cases i with
    | zero =>
      rw [List.getElem?_cons_zero, Option.some_inj] at h1 h2
      rw [← h1, ← h2]; exact hd
    | succ j =>
      rw [List.getElem?_cons_succ] at h1 h2
      exact ih j a b h1 h2

theorem debit_id_rel {amt : ℚ} (h : 0 ≤ amt) (st : List Node) (i : ℕ) :
    RoundRel (debit_id st i amt) st := by
  unfold debit_id
  induction st with
  | nil => exact List.Forall₂.nil
  | cons m rest ih =>
    rw [List.map_cons]
    refine List.Forall₂.cons ?_ ih
    by_cases hm : m.id = i
    · rw [if_pos hm]; exact DebitReach.debit h m
    · rw [if_neg hm]; exact debitReach_refl m

theorem RoundRel.debit_left {st nodes : List Node} (hr : RoundRel st nodes)
    {amt : ℚ} (h : 0 ≤ amt) (i : ℕ) : RoundRel (debit_id st i amt) nodes :=
  roundRel_trans hr (debit_id_rel h st i)

theorem debit_id_map_id (st : List Node) (i : ℕ) (amt : ℚ) :
    (debit_id st i amt).map (fun m => m.id) = st.map (fun m => m.id) := by
  unfold debit_id
  rw [List.map_map]
  refine List.map_congr_left ?_
  intro m _
  by_cases hm : m.id = i
  · simp [hm, use_energy_id]
  · simp [hm]

theorem total_residual_mono {xs ys : List Node} (h : RoundRel xs ys) :
    total_residual_energy xs ≤ total_residual_energy ys := by
  unfold total_residual_energy
  induction h with
  | nil => exact le_refl _
  | cons hd _ ih =>
    rw [List.map_cons, List.map_cons, List.sum_cons, List.sum_cons]
    exact add_le_add (max_le_max hd.energy_le (le_refl 0)) ih

/-! ### Nonnegativity of the protocol debit amounts -/

theorem tx_amt_nonneg {dst : Pos → Pos → ℚ} (hdst : ∀ a b, 0 ≤ dst a b)
    (p q : Pos) {c : ℚ} (hc : 0 ≤ c) : 0 ≤ TX_COST * (dst p q / c) :=
  mul_nonneg (by norm_num [TX_COST]) (div_nonneg (hdst p q) hc)

theorem rx_amt_nonneg : (0 : ℚ) ≤ RX_COST * 0.4 := by norm_num [RX_COST]

/-! ### Every protocol round only applies energy debits -/

theorem direct_routing_fst_cons (dst : Pos → Pos → ℚ) (packets : ℕ)
    (n : Node) (rest : List Node) :
    (direct_routing dst packets (n :: rest)).1 =
      (if n.alive then use_energy n (TX_COST * (dst n.pos BS_POS / 50)) else n) ::
        (direct_routing dst packets rest).1 := by
  simp only [direct_routing]
  split_ifs <;> rfl

theorem direct_routing_rel {dst : Pos → Pos → ℚ} (hdst : ∀ a b, 0 ≤ dst a b)
    (packets : ℕ) : ∀ nodes, RoundRel (direct_routing dst packets nodes).1 nodes
  | [] => List.Forall₂.nil
  | n :: rest => by
    rw [direct_routing_fst_cons]
    refine List.Forall₂.cons ?_ (direct_routing_rel hdst packets rest)
    by_cases h : n.alive = true
    · rw [if_pos h]
      exact DebitReach.debit (tx_amt_nonneg hdst _ _ (by norm_num)) n
    · rw [if_neg h]
      exact debitReach_refl n

theorem teen_fst_cons (dst : Pos → Pos → ℚ) (hard_th soft_th : ℚ)
    (sensed_fn : ℕ → ℚ) (packets : ℕ) (n : Node) (rest : List Node) :
    (teen dst hard_th soft_th sensed_fn packets (n :: rest)).1 =
      (if n.alive ∧ teen_triggers hard_th soft_th (sensed_fn n.id) = true then
        use_energy n (TX_COST * (dst n.pos BS_POS / 55))
       else n) :: (teen dst hard_th soft_th sensed_fn packets rest).1 := by
  simp only [teen]
  split_ifs with h1 h2 h3 h3 <;> first | rfl | (exfalso; tauto)

theorem teen_rel {dst : Pos → Pos → ℚ} (hdst : ∀ a b, 0 ≤ dst a b)
    (hard_th soft_th : ℚ) (sensed_fn : ℕ → ℚ) (packets : ℕ) :
    ∀ nodes, RoundRel (teen dst hard_th soft_th sensed_fn packets nodes).1 nodes
  | [] => List.Forall₂.nil
  | n :: rest => by
    rw [teen_fst_cons]
    refine List.Forall₂.cons ?_ (teen_rel hdst hard_th soft_th sensed_fn packets rest)
    split_ifs with h
    · exact DebitReach.debit (tx_amt_nonneg hdst _ _ (by norm_num)) n
    · exact debitReach_refl n

theorem leach_body_rel {dst : Pos → Pos → ℚ} (hdst : ∀ a b, 0 ≤ dst a b)
    (cluster_heads : List Node) (packets : ℕ) {nodes : List Node}
    (acc : List Node × List Edge × ℕ) (i : ℕ) (hacc : RoundRel acc.1 nodes) :
    RoundRel (leach_body dst cluster_heads packets acc i).1 nodes := by
  unfold leach_body
  cases hfind : acc.1.find? (fun m => m.id == i) with
  | none => exact hacc
  | some n =>
    dsimp only
    split_ifs with hhead
    · exact hacc.debit_left (tx_amt_nonneg hdst _ _ (by norm_num)) n.id
    · cases hmin : minBy (fun c => dst c.pos n.pos) cluster_heads with
      | none => exact hacc
      | some ch =>
        exact (hacc.debit_left (tx_amt_nonneg hdst _ _ (by norm_num)) n.id).debit_left
          rx_amt_nonneg ch.id

theorem leach_foldl_rel {dst : Pos → Pos → ℚ} (hdst : ∀ a b, 0 ≤ dst a b)
    (cluster_heads : List Node) (packets : ℕ) {nodes : List Node} :
    ∀ (ids : List ℕ) (acc : List Node × List Edge × ℕ), RoundRel acc.1 nodes →
      RoundRel ((ids.foldl (leach_body dst cluster_heads packets) acc)).1 nodes
  | [], _, hacc => hacc
  | i :: ids, acc, hacc => by
    rw [List.foldl_cons]
    exact leach_foldl_rel hdst cluster_heads packets ids _
      (leach_body_rel hdst cluster_heads packets acc i hacc)

theorem leach_rel {dst : Pos → Pos → ℚ} (hdst : ∀ a b, 0 ≤ dst a b)
    (sample_fn : ℕ → List Node → List Node) (nodes : List Node) (packets : ℕ) :
    RoundRel (leach dst sample_fn nodes packets).1 nodes := by
  unfold leach
  dsimp only
  split_ifs with h
  · exact roundRel_refl nodes
  · exact leach_foldl_rel hdst _ packets _ _ (roundRel_refl nodes)

theorem pegasis_hops_rel {dst : Pos → Pos → ℚ} (hdst : ∀ a b, 0 ≤ dst a b)
    {nodes : List Node} :
    ∀ (hops : List (Node × Node)) (st : List Node), RoundRel st nodes →
      RoundRel (hops.foldl
        (fun s ab =>
          debit_id (debit_id s ab.1.id (TX_COST * (dst ab.1.pos ab.2.pos / 70)))
            ab.2.id (RX_COST * 0.4)) st) nodes
  | [], _, hst => hst
  | ab :: hops, st, hst => by
    rw [List.foldl_cons]
    exact pegasis_hops_rel hdst hops _
      ((hst.debit_left (tx_amt_nonneg hdst _ _ (by norm_num)) ab.1.id).debit_left
        rx_amt_nonneg ab.2.id)

theorem pegasis_rel {dst : Pos → Pos → ℚ} (hdst : ∀ a b, 0 ≤ dst a b)
    (nodes : List Node) (packets : ℕ) :
    RoundRel (pegasis dst nodes packets).1 nodes := by
  unfold pegasis
  cases hlast : (sortByX (nodes.filter (fun n => n.alive))).getLast? with
  | none =>
    simp only [hlast]
    exact pegasis_hops_rel hdst _ nodes (roundRel_refl nodes)
  | some last =>
    simp only [hlast]
    exact (pegasis_hops_rel hdst _ nodes (roundRel_refl nodes)).debit_left
      (tx_amt_nonneg hdst _ _ (by norm_num)) last.id

theorem run_round_rel {dst : Pos → Pos → ℚ} (hdst : ∀ a b, 0 ≤ dst a b)
    (proto : Protocol) (sample_fn : ℕ → List Node → List Node)
    (hard_th soft_th : ℚ) (sensed_fn : ℕ → ℚ) (nodes : List Node) (packets : ℕ) :
    RoundRel (run_round proto dst sample_fn hard_th soft_th sensed_fn nodes packets).1
      nodes := by
  cases proto with
  | direct => exact direct_routing_rel hdst packets nodes
  | leach => exact leach_rel hdst sample_fn nodes packets
  | pegasis => exact pegasis_rel hdst nodes packets
  | teen => exact teen_rel hdst hard_th soft_th sensed_fn packets nodes

theorem sim_states_rel {step : ℕ → List Node → List Node × List Edge × ℕ}
    (hstep : ∀ r ns, RoundRel ((step r ns)).1 ns) (init : List Node) :
    ∀ (k d : ℕ), RoundRel (sim_states step init (k + d)) (sim_states step init k)
  | _, 0 => roundRel_refl _
  | k, d + 1 => by
    have ih := sim_states_rel hstep init k d
    have hs : RoundRel (sim_states step init (k + d + 1)) (sim_states step init (k + d)) :=
      hstep (k + d) (sim_states step init (k + d))
    exact roundRel_trans ih hs

theorem sim_states_rel_of_le {step : ℕ → List Node → List Node × List Edge × ℕ}
    (hstep : ∀ r ns, RoundRel ((step r ns)).1 ns) (init : List Node)
    {k k2 : ℕ} (h : k ≤ k2) :
    RoundRel (sim_states step init k2) (sim_states step init k) := by
  obtain ⟨d, rfl⟩ := Nat.exists_eq_add_of_le h
  exact sim_states_rel hstep init k d

/-! ### Claim theorems -/

/-- C1: For every node and every sequence of rounds of any protocol (Direct,
LEACH, PEGASIS, TEEN), the alive flag is monotonic non-increasing: the node
state after more rounds is reached from the earlier state purely by energy
debits (`DebitReach`, the only operation touching `alive`), alive later
implies alive earlier, and a node dead earlier is bitwise unchanged later. -/
theorem c1_alive_monotonic (proto : Protocol) (dst : Pos → Pos → ℚ)
    (sample_fns : ℕ → ℕ → List Node → List Node) (hard_th soft_th : ℚ)
    (sensed_fns : ℕ → ℕ → ℚ) (packets : ℕ) (init : List Node)
    (hdst : ∀ a b, 0 ≤ dst a b) (k k2 i : ℕ) (hk : k ≤ k2) (a b : Node)
    (ha : (protocol_states proto dst sample_fns hard_th soft_th sensed_fns
      packets init k2)[i]? = some a)
    (hb : (protocol_states proto dst sample_fns hard_th soft_th sensed_fns
      packets init k)[i]? = some b) :
    DebitReach a b ∧ (a.alive = true → b.alive = true) ∧
      (b.alive = false → a = b) := by
  unfold protocol_states at ha hb
  have hrel := sim_states_rel_of_le
    (fun r ns => run_round_rel hdst proto (sample_fns r) hard_th soft_th
      (sensed_fns r) ns packets) init hk
  have h := hrel.get i a b ha hb
  exact ⟨h, h.alive_mono, h.dead_fixed⟩

/-- Witness for C1 at a concrete one-node population over one Direct round. -/
theorem c1_alive_monotonic_witness :
    DebitReach ⟨0, (0, 0), 5, false⟩ ⟨0, (0, 0), 5, false⟩ ∧
    ((⟨0, (0, 0), 5, false⟩ : Node).alive = true →
      (⟨0, (0, 0), 5, false⟩ : Node).alive = true) ∧
    ((⟨0, (0, 0), 5, false⟩ : Node).alive = false →
      (⟨0, (0, 0), 5, false⟩ : Node) = ⟨0, (0, 0), 5, false⟩) :=
  c1_alive_monotonic .direct (fun _ _ => 0) (fun _ _ xs => xs) 0 0
    (fun _ _ => 0) 1 [⟨0, (0, 0), 5, false⟩] (fun _ _ => le_refl 0) 0 1 0
    (by norm_num) _ _ rfl rfl

/-- C3: the energy debit operation is a no-op on a dead node; any number of
repeated calls with a nonnegative amount leaves the node (both energy and
alive) unchanged. -/
theorem c3_debit_noop_on_dead (n : Node) (amount : ℚ) (k : ℕ)
    (hamt : 0 ≤ amount) (h : n.alive = false) :
    (fun m => use_energy m amount)^[k] n = n :=
  @Function.iterate_fixed Node (fun m => use_energy m amount) n
    (use_energy_dead h amount) k

/-- Witness for C3: three debits of 1 on a concrete dead node. -/
theorem c3_debit_noop_on_dead_witness :
    (fun m => use_energy m 1)^[3] ⟨7, (3, 4), 5, false⟩ = ⟨7, (3, 4), 5, false⟩ :=
  c3_debit_noop_on_dead ⟨7, (3, 4), 5, false⟩ 1 3 (by norm_num) rfl

/-- C9: every routing operation removes no node (the output has the input's
length) and leaves every node's id and position unchanged; nodes evolve only
through energy debits (`DebitReach`), so only energy and alive can change. -/
theorem c9_frame (proto : Protocol) (dst : Pos → Pos → ℚ)
    (sample_fn : ℕ → List Node → List Node) (hard_th soft_th : ℚ)
    (sensed_fn : ℕ → ℚ) (nodes : List Node) (packets : ℕ)
    (hdst : ∀ a b, 0 ≤ dst a b) (i : ℕ) (a b : Node)
    (ha : (run_round proto dst sample_fn hard_th soft_th sensed_fn nodes
      packets).1[i]? = some a)
    (hb : nodes[i]? = some b) :
    (run_round proto dst sample_fn hard_th soft_th sensed_fn nodes
      packets).1.length = nodes.length ∧
      a.id = b.id ∧ a.pos = b.pos ∧ DebitReach a b := by
  have hrel := run_round_rel hdst proto sample_fn hard_th soft_th sensed_fn
    nodes packets
  have h := hrel.get i a b ha hb
  exact ⟨hrel.length_eq, h.id_eq, h.pos_eq, h⟩

/-- Witness for C9 at a concrete one-node population and a PEGASIS round. -/
theorem c9_frame_witness :
    (run_round .pegasis (fun _ _ => 0) (fun _ xs => xs) 0 0 (fun _ => 0)
      [⟨3, (1, 2), 5, false⟩] 2).1.length =
        ([⟨3, (1, 2), 5, false⟩] : List Node).length ∧
      (⟨3, (1, 2), 5, false⟩ : Node).id = (⟨3, (1, 2), 5, false⟩ : Node).id ∧
      (⟨3, (1, 2), 5, false⟩ : Node).pos = (⟨3, (1, 2), 5, false⟩ : Node).pos ∧
      DebitReach ⟨3, (1, 2), 5, false⟩ ⟨3, (1, 2), 5, false⟩ :=
  c9_frame .pegasis (fun _ _ => 0) (fun _ xs => xs) 0 0 (fun _ => 0)
    [⟨3, (1, 2), 5, false⟩] 2 (fun _ _ => le_refl 0) 0 _ _ rfl rfl

/-- C2: for every protocol and every run, the per-round total residual energy
series recorded by the simulation loop is non-increasing round-over-round. -/
theorem c2_energy_series_nonincreasing (proto : Protocol) (dst : Pos → Pos → ℚ)
    (sample_fns : ℕ → ℕ → List Node → List Node) (hard_th soft_th : ℚ)
    (sensed_fns : ℕ → ℕ → ℚ) (rounds packets : ℕ) (init : List Node)
    (hdst : ∀ a b, 0 ≤ dst a b) (i : ℕ) (x y : ℚ)
    (hx : (run_simulation proto dst sample_fns hard_th soft_th sensed_fns
      rounds packets init).energy_series[i]? = some x)
    (hy : (run_simulation proto dst sample_fns hard_th soft_th sensed_fns
      rounds packets init).energy_series[i + 1]? = some y) :
    y ≤ x := by
  unfold run_simulation run_sim at hx hy
  dsimp only at hx hy
  rw [List.getElem?_map] at hx hy
  have hi1 : i + 1 < rounds := by
    by_contra hnot
    rw [List.getElem?_eq_none (by simpa using Nat.le_of_not_lt hnot)] at hy
    simp at hy
  have hi : i < rounds := Nat.lt_of_succ_lt hi1
  rw [List.getElem?_range hi] at hx
  rw [List.getElem?_range hi1] at hy
  simp only [Option.map_some', Option.some_inj] at hx hy
  rw [← hx, ← hy]
  exact total_residual_mono
    (sim_states_rel
      (fun r ns => run_round_rel hdst proto (sample_fns r) hard_th soft_th
        (sensed_fns r) ns packets) init (i + 1) 1)

/-- Witness for C2 on a concrete two-round Direct run of a one-node
population. -/
theorem c2_energy_series_nonincreasing_witness : (5 : ℚ) ≤ 5 :=
  c2_energy_series_nonincreasing .direct (fun _ _ => 0) (fun _ _ xs => xs) 0 0
    (fun _ _ => 0) 2 1 [⟨0, (0, 0), 5, false⟩] (fun _ _ => le_refl 0) 0 5 5
    (by simp [run_simulation, run_sim, sim_states, run_round, direct_routing,
      total_residual_energy, List.range_succ])
    (by simp [run_simulation, run_sim, sim_states, run_round, direct_routing,
      total_residual_energy, List.range_succ])

/-! ### Degradation on an all-dead population (C5 support) -/

theorem direct_routing_cons_dead (dst : Pos → Pos → ℚ) (packets : ℕ)
    {n : Node} (rest : List Node) (h : n.alive = false) :
    direct_routing dst packets (n :: rest) =
      (n :: (direct_routing dst packets rest).1,
       (direct_routing dst packets rest).2.1,
       (direct_routing dst packets rest).2.2) := by
  simp only [direct_routing]
  rw [if_neg (by simp [h])]

theorem direct_routing_all_dead (dst : Pos → Pos → ℚ) (packets : ℕ) :
    ∀ nodes, (∀ n ∈ nodes, n.alive = false) →
      direct_routing dst packets nodes = (nodes, [], 0)
  | [], _ => rfl
  | n :: rest, h => by
    rw [direct_routing_cons_dead dst packets rest (h n (List.mem_cons_self n rest)),
      direct_routing_all_dead dst packets rest
        (fun m hm => h m (List.mem_cons_of_mem n hm))]

theorem teen_cons_dead (dst : Pos → Pos → ℚ) (hard_th soft_th : ℚ)
    (sensed_fn : ℕ → ℚ) (packets : ℕ) {n : Node} (rest : List Node)
    (h : n.alive = false) :
    teen dst hard_th soft_th sensed_fn packets (n :: rest) =
      (n :: (teen dst hard_th soft_th sensed_fn packets rest).1,
       (teen dst hard_th soft_th sensed_fn packets rest).2.1,
       (teen dst hard_th soft_th sensed_fn packets rest).2.2) := by
  simp only [teen]
  rw [if_neg (by simp [h])]

theorem teen_all_dead (dst : Pos → Pos → ℚ) (hard_th soft_th : ℚ)
    (sensed_fn : ℕ → ℚ) (packets : ℕ) :
    ∀ nodes, (∀ n ∈ nodes, n.alive = false) →
      teen dst hard_th soft_th sensed_fn packets nodes = (nodes, [], 0)
  | [], _ => rfl
  | n :: rest, h => by
    rw [teen_cons_dead dst hard_th soft_th sensed_fn packets rest
        (h n (List.mem_cons_self n rest)),
      teen_all_dead dst hard_th soft_th sensed_fn packets rest
        (fun m hm => h m (List.mem_cons_of_mem n hm))]

theorem leach_all_dead (dst : Pos → Pos → ℚ)
    (sample_fn : ℕ → List Node → List Node) (nodes : List Node) (packets : ℕ)
    (h : ∀ n ∈ nodes, n.alive = false) :
    leach dst sample_fn nodes packets = (nodes, [], 0) := by
  unfold leach
  dsimp only
  rw [if_pos]
  rw [List.isEmpty_iff, List.filter_eq_nil_iff]
  intro a ha
  simp [h a ha]

theorem filter_alive_eq_nil {nodes : List Node}
    (h : ∀ n ∈ nodes, n.alive = false) :
    nodes.filter (fun n => n.alive) = [] := by
  rw [List.filter_eq_nil_iff]
  intro a ha
  simp [h a ha]

theorem pegasis_all_dead (dst : Pos → Pos → ℚ) (nodes : List Node)
    (packets : ℕ) (h : ∀ n ∈ nodes, n.alive = false) :
    pegasis dst nodes packets = (nodes, [], 0) := by
  unfold pegasis
  rw [filter_alive_eq_nil h]
  rfl

/-- C5: for every protocol, a round on a population with zero alive nodes
returns the node collection unchanged, an empty edge list and zero delivered
packets. -/
theorem c5_zero_alive_degrades (proto : Protocol) (dst : Pos → Pos → ℚ)
    (sample_fn : ℕ → List Node → List Node) (hard_th soft_th : ℚ)
    (sensed_fn : ℕ → ℚ) (nodes : List Node) (packets : ℕ)
    (h : ∀ n ∈ nodes, n.alive = false) :
    run_round proto dst sample_fn hard_th soft_th sensed_fn nodes packets =
      (nodes, [], 0) := by
  cases proto with
  | direct => exact direct_routing_all_dead dst packets nodes h
  | leach => exact leach_all_dead dst sample_fn nodes packets h
  | pegasis => exact pegasis_all_dead dst nodes packets h
  | teen => exact teen_all_dead dst hard_th soft_th sensed_fn packets nodes h

/-- Witness for C5: a concrete two-node dead population under PEGASIS. -/
theorem c5_zero_alive_degrades_witness :
    run_round .pegasis (fun _ _ => 1) (fun _ xs => xs) 0 0 (fun _ => 0)
      [⟨0, (1, 2), 0, false⟩, ⟨1, (3, 4), -1, false⟩] 3 =
      ([⟨0, (1, 2), 0, false⟩, ⟨1, (3, 4), -1, false⟩], [], 0) :=
  c5_zero_alive_degrades .pegasis (fun _ _ => 1) (fun _ xs => xs) 0 0
    (fun _ => 0) [⟨0, (1, 2), 0, false⟩, ⟨1, (3, 4), -1, false⟩] 3
    (by decide)

/-! ### Delivered-packet characterizations (C4 support) -/

theorem direct_routing_delivered_cons (dst : Pos → Pos → ℚ) (packets : ℕ)
    (n : Node) (rest : List Node) :
    (direct_routing dst packets (n :: rest)).2.2 =
      (direct_routing dst packets rest).2.2 +
        (if n.alive && (use_energy n (TX_COST * (dst n.pos BS_POS / 50))).alive
         then packets else 0) := by
  simp only [direct_routing]
  split_ifs with h1 h2 <;> simp_all

theorem direct_routing_delivered (dst : Pos → Pos → ℚ) (packets : ℕ) :
    ∀ nodes, (direct_routing dst packets nodes).2.2 =
      packets * nodes.countP
        (fun n => n.alive &&
          (use_energy n (TX_COST * (dst n.pos BS_POS / 50))).alive)
  | [] => rfl
  | n :: rest => by
    rw [direct_routing_delivered_cons, List.countP_cons, Nat.mul_add,
      direct_routing_delivered dst packets rest]
    split_ifs <;> simp

theorem teen_delivered_cons (dst : Pos → Pos → ℚ) (hard_th soft_th : ℚ)
    (sensed_fn : ℕ → ℚ) (packets : ℕ) (n : Node) (rest : List Node) :
    (teen dst hard_th soft_th sensed_fn packets (n :: rest)).2.2 =
      (teen dst hard_th soft_th sensed_fn packets rest).2.2 +
        (if n.alive && teen_triggers hard_th soft_th (sensed_fn n.id) &&
            (use_energy n (TX_COST * (dst n.pos BS_POS / 55))).alive
         then packets else 0) := by
  simp only [teen]
  split_ifs with h1 h2 h3 <;> simp_all

theorem teen_delivered (dst : Pos → Pos → ℚ) (hard_th soft_th : ℚ)
    (sensed_fn : ℕ → ℚ) (packets : ℕ) :
    ∀ nodes, (teen dst hard_th soft_th sensed_fn packets nodes).2.2 =
      packets * nodes.countP
        (fun n => n.alive && teen_triggers hard_th soft_th (sensed_fn n.id) &&
          (use_energy n (TX_COST * (dst n.pos BS_POS / 55))).alive)
  | [] => rfl
  | n :: rest => by
    rw [teen_delivered_cons, List.countP_cons, Nat.mul_add,
      teen_delivered dst hard_th soft_th sensed_fn packets rest]
    split_ifs <;> simp

theorem length_insertByX (n : Node) :
    ∀ l : List Node, (insertByX n l).length = l.length + 1
  | [] => rfl
  | m :: rest => by
    unfold insertByX
    split_ifs with h
    · rfl
    · rw [List.length_cons, length_insertByX n rest, List.length_cons]

theorem sortByX_foldl_length :
    ∀ (l : List Node) (acc : List Node),
      (l.foldl (fun acc n => insertByX n acc) acc).length = acc.length + l.length
  | [], _ => rfl
  | n :: rest, acc => by
    rw [List.foldl_cons, sortByX_foldl_length rest (insertByX n acc),
      length_insertByX, List.length_cons]
    omega

theorem sortByX_length (l : List Node) : (sortByX l).length = l.length := by
  unfold sortByX
  rw [sortByX_foldl_length]
  simp

theorem sortByX_eq_nil_iff {l : List Node} : sortByX l = [] ↔ l = [] := by
  rw [← List.length_eq_zero, sortByX_length, List.length_eq_zero]

theorem pegasis_delivered (dst : Pos → Pos → ℚ) (nodes : List Node)
    (packets : ℕ) :
    (pegasis dst nodes packets).2.2 =
      if (nodes.filter (fun n => n.alive)).isEmpty then 0 else packets := by
  unfold pegasis
  dsimp only
  cases hlast : (sortByX (nodes.filter (fun n => n.alive))).getLast? with
  | none =>
    have hnil : nodes.filter (fun n => n.alive) = [] :=
      sortByX_eq_nil_iff.mp (List.getLast?_eq_none_iff.mp hlast)
    rw [if_pos (List.isEmpty_iff.mpr hnil)]
  | some last =>
    have hne : ¬(nodes.filter (fun n => n.alive)).isEmpty = true := by
      intro hemp
      rw [List.isEmpty_iff.mp hemp] at hlast
      simp [sortByX] at hlast
    rw [if_neg hne]
    simp

/-- C4 counterexample: a one-node LEACH round where the single cluster head
dies from its own transmission debit (energy 1, distance 10000), yet the
round still reports 1 delivered packet — so delivery is not gated on the
transmitter surviving its debit. -/
theorem c4_counterexample :
    (leach (fun _ _ => 10000) (fun k xs => xs.take k)
      [⟨0, (0, 0), 1, true⟩] 1).2.2 = 1 ∧
    ((leach (fun _ _ => 10000) (fun k xs => xs.take k)
      [⟨0, (0, 0), 1, true⟩] 1).1.map (fun n => n.alive)) = [false] := by
  constructor
  · rfl
  · norm_num [leach, leach_body, debit_id, use_energy, TX_COST, BS_POS]

/-- C4 amended: the survival gate holds for Direct and TEEN — a transmission
counts toward delivered only when the originating node is still alive after
its own debit (delivered equals packets times the number of such nodes) —
but LEACH cluster heads and the PEGASIS chain tail count their packets
unconditionally, even when the debit kills the transmitter. -/
theorem c4_amended_delivery_gate (dst : Pos → Pos → ℚ) (hard_th soft_th : ℚ)
    (sensed_fn : ℕ → ℚ) (packets : ℕ) (nodes : List Node) :
    (direct_routing dst packets nodes).2.2 =
      packets * nodes.countP
        (fun n => n.alive &&
          (use_energy n (TX_COST * (dst n.pos BS_POS / 50))).alive) ∧
    (teen dst hard_th soft_th sensed_fn packets nodes).2.2 =
      packets * nodes.countP
        (fun n => n.alive && teen_triggers hard_th soft_th (sensed_fn n.id) &&
          (use_energy n (TX_COST * (dst n.pos BS_POS / 55))).alive) ∧
    (pegasis dst nodes packets).2.2 =
      if (nodes.filter (fun n => n.alive)).isEmpty then 0 else packets :=
  ⟨direct_routing_delivered dst packets nodes,
   teen_delivered dst hard_th soft_th sensed_fn packets nodes,
   pegasis_delivered dst nodes packets⟩

/-- C8 counterexample: with hard threshold 0 and soft threshold 1 (inside the
configured 1–20 range), an alive node whose sensed value is 0 (inside
[0, 100]) does not trigger: its trigger condition is false and the TEEN round
leaves it untouched with no edge and zero delivered packets — so not every
alive node transmits. -/
theorem c8_counterexample :
    teen_triggers 0 1 0 = false ∧
    (0 : ℚ) ≤ 0 ∧ (0 : ℚ) ≤ 100 ∧ (1 : ℚ) ≤ 1 ∧ (1 : ℚ) ≤ 20 ∧
    teen (fun _ _ => 1) 0 1 (fun _ => 0) 1 [⟨0, (0, 0), 1, true⟩] =
      ([⟨0, (0, 0), 1, true⟩], [], 0) := by
  refine ⟨by norm_num [teen_triggers], by norm_num, by norm_num, by norm_num,
    by norm_num, ?_⟩
  norm_num [teen, teen_triggers]

/-- C8 amended: in TEEN with hard threshold 0, an alive node whose sensed
value is nonnegative triggers exactly when the sensed value is at least the
soft threshold (the soft clause still gates transmissions below it); whenever
it does trigger, the round debits the node with its direct-to-base
transmission cost. -/
theorem c8_amended_teen_hard_zero (dst : Pos → Pos → ℚ) (soft_th : ℚ)
    (sensed_fn : ℕ → ℚ) (packets : ℕ) (n : Node)
    (h0 : 0 ≤ sensed_fn n.id) (halive : n.alive = true) :
    (teen_triggers 0 soft_th (sensed_fn n.id) = true ↔
      soft_th ≤ sensed_fn n.id) ∧
    (soft_th ≤ sensed_fn n.id →
      (teen dst 0 soft_th sensed_fn packets [n]).1 =
        [use_energy n (TX_COST * (dst n.pos BS_POS / 55))]) := by
  have hiff : teen_triggers 0 soft_th (sensed_fn n.id) = true ↔
      soft_th ≤ sensed_fn n.id := by
    simp [teen_triggers, h0, sub_nonneg]
  refine ⟨hiff, fun hle => ?_⟩
  rw [teen_fst_cons, if_pos ⟨halive, hiff.mpr hle⟩]
  rfl

/-- Witness for C8's amended theorem at soft threshold 1 and sensed value 5. -/
theorem c8_amended_teen_hard_zero_witness :
    (teen_triggers 0 1 ((fun _ => (5 : ℚ)) (0 : ℕ)) = true ↔
      (1 : ℚ) ≤ (fun _ => (5 : ℚ)) (0 : ℕ)) ∧
    ((1 : ℚ) ≤ (fun _ => (5 : ℚ)) (0 : ℕ) →
      (teen (fun _ _ => 0) 0 1 (fun _ => 5) 2 [⟨0, (0, 0), 1, true⟩]).1 =
        [use_energy ⟨0, (0, 0), 1, true⟩ (TX_COST * (0 / 55))]) :=
  c8_amended_teen_hard_zero (fun _ _ => 0) 1 (fun _ => 5) 2
    ⟨0, (0, 0), 1, true⟩ (by norm_num) rfl

/-! ### Direct routing at the base station (C7 support) -/

theorem use_energy_zero {n : Node} (halive : n.alive = true)
    (hE : 0 < n.energy) : use_energy n 0 = n := by
  unfold use_energy
  rw [if_pos halive, if_neg (by rw [sub_zero]; exact not_le.mpr hE)]
  cases n
  simp

theorem direct_single_at_bs (dst : Pos → Pos → ℚ) (packets : ℕ) (node : Node)
    (hd : dst node.pos BS_POS = 0) (halive : node.alive = true)
    (hE : 0 < node.energy) :
    direct_routing dst packets [node] = ([node], [(node.pos, BS_POS)], packets) := by
  have hz : TX_COST * (dst node.pos BS_POS / 50) = 0 := by rw [hd]; norm_num
  simp only [direct_routing]
  rw [hz, use_energy_zero halive hE]
  simp [halive]

/-- C7: a single-node Direct simulation whose node sits exactly at the base
station's coordinates delivers all packets: with 1 round and 5 packets the
delivered total is 5 and the dead series is [0]; in general a node at the
base station with positive energy is debited 0, survives, and delivers its
packets each round. -/
theorem c7_direct_at_base (dst : Pos → Pos → ℚ)
    (sample_fns : ℕ → ℕ → List Node → List Node) (hard_th soft_th : ℚ)
    (sensed_fns : ℕ → ℕ → ℚ) (packets : ℕ) (node : Node)
    (h0 : ∀ p, dst p p = 0) (hpos : node.pos = BS_POS)
    (halive : node.alive = true) (hE : 0 < node.energy) :
    ((run_simulation .direct dst sample_fns hard_th soft_th sensed_fns 1 5
        (create_nodes 1 (fun _ => BS_POS))).delivered_total = 5 ∧
      (run_simulation .direct dst sample_fns hard_th soft_th sensed_fns 1 5
        (create_nodes 1 (fun _ => BS_POS))).dead_series = [0]) ∧
    direct_routing dst packets [node] =
      ([node], [(node.pos, BS_POS)], packets) := by
  have hd : dst node.pos BS_POS = 0 := by rw [hpos]; exact h0 BS_POS
  have hbs : direct_routing dst 5 (create_nodes 1 (fun _ => BS_POS)) =
      ([⟨0, BS_POS, INITIAL_ENERGY, true⟩], [(BS_POS, BS_POS)], 5) :=
    direct_single_at_bs dst 5 ⟨0, BS_POS, INITIAL_ENERGY, true⟩ (h0 BS_POS)
      rfl (by norm_num [INITIAL_ENERGY])
  refine ⟨⟨?_, ?_⟩, direct_single_at_bs dst packets node hd halive hE⟩
  · simp [run_simulation, run_sim, sim_states, run_round, List.range_succ, hbs]
  · simp [run_simulation, run_sim, sim_states, run_round, List.range_succ, hbs,
      dead_count]

/-- Witness for C7 with the zero distance oracle. -/
theorem c7_direct_at_base_witness :
    ((run_simulation .direct (fun _ _ => 0) (fun _ _ xs => xs) 0 0
        (fun _ _ => 0) 1 5
        (create_nodes 1 (fun _ => BS_POS))).delivered_total = 5 ∧
      (run_simulation .direct (fun _ _ => 0) (fun _ _ xs => xs) 0 0
        (fun _ _ => 0) 1 5
        (create_nodes 1 (fun _ => BS_POS))).dead_series = [0]) ∧
    direct_routing (fun _ _ => 0) 7 [⟨0, BS_POS, 1, true⟩] =
      ([⟨0, BS_POS, 1, true⟩], [(BS_POS, BS_POS)], 7) :=
  c7_direct_at_base (fun _ _ => 0) (fun _ _ xs => xs) 0 0 (fun _ _ => 0) 7
    ⟨0, BS_POS, 1, true⟩ (fun _ => rfl) rfl rfl (by norm_num)

/-! ### LEACH cluster-head counting (C6 and C10 support) -/

theorem minBy_ne_nil (f : Node → ℚ) :
    ∀ (l : List Node), l ≠ [] → ∃ c, minBy f l = some c
  | [], h => absurd rfl h
  | c :: rest, _ => by
    unfold minBy
    cases h : minBy f rest with
    | none => exact ⟨c, rfl⟩
    | some b =>
      dsimp only
      split_ifs <;> exact ⟨_, rfl⟩

theorem find_id_of_mem {st : List Node} {i : ℕ}
    (h : i ∈ st.map (fun n => n.id)) :
    ∃ n, st.find? (fun m => m.id == i) = some n ∧ n.id = i := by
  have hsome : (st.find? (fun m => m.id == i)).isSome = true := by
    rw [List.find?_isSome]
    obtain ⟨n, hn, rfl⟩ := List.mem_map.mp h
    exact ⟨n, hn, by simp⟩
  cases hf : st.find? (fun m => m.id == i) with
  | none => rw [hf] at hsome; simp at hsome
  | some n => exact ⟨n, rfl, by simpa using List.find?_some hf⟩

theorem find_id_nodup :
    ∀ {nodes : List Node}, (nodes.map (fun n => n.id)).Nodup →
      ∀ {x : Node}, x ∈ nodes → nodes.find? (fun m => m.id == x.id) = some x
  | [], _, _, hx => absurd hx (List.not_mem_nil _)
  | n :: rest, hnd, x, hx => by
    rw [List.map_cons, List.nodup_cons] at hnd
    rcases List.mem_cons.mp hx with rfl | hx2
    · exact List.find?_cons_of_pos rest (by simp)
    · by_cases hid : n.id = x.id
      · exact absurd (hid ▸ List.mem_map.mpr ⟨x, hx2, rfl⟩) hnd.1
      · rw [List.find?_cons_of_neg rest (by simp [hid])]
        exact find_id_nodup hnd.2 hx2

theorem subperm_map_id {l1 l2 : List Node} (h : List.Subperm l1 l2) :
    List.Subperm (l1.map (fun n => n.id)) (l2.map (fun n => n.id)) := by
  obtain ⟨l, hperm, hsub⟩ := List.subperm_iff.mp h
  exact List.subperm_iff.mpr ⟨l.map (fun n => n.id), hperm.map _, hsub.map _⟩

theorem subperm_nodup {α : Type} {l1 l2 : List α} (h : List.Subperm l1 l2)
    (hnd : l2.Nodup) : l1.Nodup := by
  obtain ⟨l, hperm, hsub⟩ := List.subperm_iff.mp h
  exact hsub.nodup (hperm.nodup_iff.mpr hnd)

theorem countP_heads (heads : List Node) (L : List ℕ) (hLnd : L.Nodup)
    (hSnd : (heads.map (fun n => n.id)).Nodup)
    (hsub : ∀ x ∈ heads.map (fun n => n.id), x ∈ L) :
    L.countP (fun i => heads.any (fun c => c.id == i)) =
      (heads.map (fun n => n.id)).length := by
  rw [List.countP_eq_length_filter]
  refine List.Perm.length_eq ?_
  refine (List.perm_ext_iff_of_nodup (hLnd.filter _) hSnd).mpr ?_
  intro a
  simp only [List.mem_filter, List.any_eq_true, List.mem_map, beq_iff_eq]
  constructor
  · rintro ⟨_, c, hc, rfl⟩
    exact ⟨c, hc, rfl⟩
  · rintro ⟨c, hc, rfl⟩
    exact ⟨hsub _ (List.mem_map.mpr ⟨c, hc, rfl⟩), c, hc, rfl⟩

theorem leach_body_step (dst : Pos → Pos → ℚ) (heads : List Node)
    (packets : ℕ) (hne : heads ≠ []) (acc : List Node × List Edge × ℕ) (i : ℕ)
    (hmem : i ∈ acc.1.map (fun m => m.id)) :
    (leach_body dst heads packets acc i).1.map (fun m => m.id) =
      acc.1.map (fun m => m.id) ∧
    (leach_body dst heads packets acc i).2.1.length = acc.2.1.length + 1 ∧
    (leach_body dst heads packets acc i).2.2 =
      acc.2.2 +
        (if heads.any (fun c => c.id == i) = true then packets else 0) := by
  obtain ⟨n, hfind, hid⟩ := find_id_of_mem hmem
  subst hid
  unfold leach_body
  rw [hfind]
  dsimp only
  by_cases hh : heads.any (fun c => c.id == n.id) = true
  · rw [if_pos hh]
    exact ⟨debit_id_map_id _ _ _, by simp, by simp [hh]⟩
  · rw [if_neg hh]
    obtain ⟨ch, hch⟩ := minBy_ne_nil (fun c => dst c.pos n.pos) heads hne
    rw [hch]
    dsimp only
    refine ⟨?_, by simp, by simp [hh]⟩
    rw [debit_id_map_id, debit_id_map_id]

theorem leach_foldl_count (dst : Pos → Pos → ℚ) (heads : List Node)
    (packets : ℕ) (nid : List ℕ) (hne : heads ≠ []) :
    ∀ (L : List ℕ) (acc : List Node × List Edge × ℕ),
      acc.1.map (fun m => m.id) = nid → (∀ i ∈ L, i ∈ nid) →
      ((L.foldl (leach_body dst heads packets) acc).1.map (fun m => m.id) = nid ∧
       (L.foldl (leach_body dst heads packets) acc).2.1.length =
         acc.2.1.length + L.length ∧
       (L.foldl (leach_body dst heads packets) acc).2.2 =
         acc.2.2 +
           packets * L.countP (fun i => heads.any (fun c => c.id == i)))
  | [], acc, hacc, _ => ⟨hacc, by simp, by simp⟩
  | i :: L, acc, hacc, hmem => by
    rw [List.foldl_cons]
    obtain ⟨hmap, hpaths, hdel⟩ := leach_body_step dst heads packets hne acc i
      (hacc ▸ hmem i (List.mem_cons_self i L))
    obtain ⟨hmap2, hpaths2, hdel2⟩ := leach_foldl_count dst heads packets nid
      hne L (leach_body dst heads packets acc i) (hmap.trans hacc)
      (fun j hj => hmem j (List.mem_cons_of_mem i hj))
    refine ⟨hmap2, ?_, ?_⟩
    · rw [hpaths2, hpaths, List.length_cons]
      omega
    · rw [hdel2, hdel, List.countP_cons]
      by_cases hh : heads.any (fun c => c.id == i) = true <;>
        simp [hh, Nat.mul_add] <;> omega

theorem leach_num_ch_le {nodes : List Node}
    (hne : nodes.filter (fun n => n.alive) ≠ []) :
    max 1 ((nodes.filter (fun n => n.alive)).length / 10) ≤
      (nodes.filter (fun n => n.alive)).length :=
  max_le (List.length_pos.mpr hne) (Nat.div_le_self _ _)

theorem sample_ne_nil {sample_fn : ℕ → List Node → List Node}
    {nodes : List Node}
    (hlen : (sample_fn (max 1 ((nodes.filter (fun n => n.alive)).length / 10))
      (nodes.filter (fun n => n.alive))).length =
        max 1 ((nodes.filter (fun n => n.alive)).length / 10)) :
    sample_fn (max 1 ((nodes.filter (fun n => n.alive)).length / 10))
      (nodes.filter (fun n => n.alive)) ≠ [] := by
  intro h
  rw [h] at hlen
  have : max 1 ((nodes.filter (fun n => n.alive)).length / 10) = 0 := by
    simpa using hlen.symm
  omega

/-- C10: in every LEACH round with at least one alive node at the start, for
any head sample obeying the `random.sample` contract, the delivered count is
packets times max(1, alive_count / 10) — independent of which heads were
drawn and of whether any head survives its debit — and the edge list has
exactly one edge per node alive at the start of the round. -/
theorem c10_leach_delivered_and_edges (dst : Pos → Pos → ℚ)
    (sample_fn : ℕ → List Node → List Node) (nodes : List Node) (packets : ℕ)
    (hspec : SampleSpec sample_fn)
    (hnd : (nodes.map (fun n => n.id)).Nodup)
    (hne : nodes.filter (fun n => n.alive) ≠ []) :
    (leach dst sample_fn nodes packets).2.2 =
      packets * max 1 ((nodes.filter (fun n => n.alive)).length / 10) ∧
    (leach dst sample_fn nodes packets).2.1.length =
      (nodes.filter (fun n => n.alive)).length := by
  obtain ⟨hlen, hsub⟩ := hspec _ _ (leach_num_ch_le hne)
  have hheads_ne := sample_ne_nil hlen
  have hLnd : ((nodes.filter (fun n => n.alive)).map (fun m => m.id)).Nodup :=
    List.Nodup.sublist ((List.filter_sublist nodes).map _) hnd
  have hSnd := subperm_nodup (subperm_map_id hsub) hLnd
  have hcount := countP_heads _ _ hLnd hSnd
    (fun x hx => (subperm_map_id hsub).subset hx)
  unfold leach
  dsimp only
  rw [if_neg (by simpa [List.isEmpty_iff] using hne)]
  obtain ⟨hmap, hpaths, hdel⟩ := leach_foldl_count dst _ packets
    (nodes.map (fun m => m.id)) hheads_ne
    ((nodes.filter (fun n => n.alive)).map (fun n => n.id)) (nodes, [], 0) rfl
    (fun i hi => by
      obtain ⟨m, hm, rfl⟩ := List.mem_map.mp hi
      exact List.mem_map.mpr ⟨m, List.mem_of_mem_filter hm, rfl⟩)
  constructor
  · rw [hdel, hcount, List.length_map, hlen]
    simp
  · rw [hpaths, List.length_map]
    simp

theorem take_sample_spec : SampleSpec (fun k xs => xs.take k) := by
  intro k xs hk
  constructor
  · rw [List.length_take]
    omega
  · exact (List.take_sublist k xs).subperm

/-- Witness for C10 on a concrete one-alive-node population. -/
theorem c10_leach_delivered_and_edges_witness :
    (leach (fun _ _ => 1) (fun k xs => xs.take k)
      [⟨0, (0, 0), 1, true⟩] 3).2.2 =
      3 * max 1 ((([⟨0, (0, 0), 1, true⟩] : List Node).filter
        (fun n => n.alive)).length / 10) ∧
    (leach (fun _ _ => 1) (fun k xs => xs.take k)
      [⟨0, (0, 0), 1, true⟩] 3).2.1.length =
      (([⟨0, (0, 0), 1, true⟩] : List Node).filter
        (fun n => n.alive)).length :=
  c10_leach_delivered_and_edges (fun _ _ => 1) (fun k xs => xs.take k)
    [⟨0, (0, 0), 1, true⟩] 3 take_sample_spec (by decide) (by decide)

/-- C6: in every LEACH round with at least one alive node, the cluster-head
set drawn by `random.sample` has exactly max(1, alive_count / 10) members,
chosen without replacement from the currently alive nodes (a sub-permutation
of the alive list); in particular with exactly one alive node the sample is
forced to be that node, and the round routes it directly to the base station
(one head-to-base edge, the full packet count delivered). -/
theorem c6_leach_cluster_heads (dst : Pos → Pos → ℚ)
    (sample_fn : ℕ → List Node → List Node) (nodes : List Node) (packets : ℕ)
    (hspec : SampleSpec sample_fn)
    (hnd : (nodes.map (fun n => n.id)).Nodup)
    (hne : nodes.filter (fun n => n.alive) ≠ []) :
    (sample_fn (max 1 ((nodes.filter (fun n => n.alive)).length / 10))
      (nodes.filter (fun n => n.alive))).length =
      max 1 ((nodes.filter (fun n => n.alive)).length / 10) ∧
    List.Subperm
      (sample_fn (max 1 ((nodes.filter (fun n => n.alive)).length / 10))
        (nodes.filter (fun n => n.alive)))
      (nodes.filter (fun n => n.alive)) ∧
    ((nodes.filter (fun n => n.alive)).length = 1 →
      sample_fn (max 1 ((nodes.filter (fun n => n.alive)).length / 10))
        (nodes.filter (fun n => n.alive)) = nodes.filter (fun n => n.alive) ∧
      (leach dst sample_fn nodes packets).2.1 =
        (nodes.filter (fun n => n.alive)).map (fun x => (x.pos, BS_POS)) ∧
      (leach dst sample_fn nodes packets).2.2 = packets) := by
  obtain ⟨hlen, hsub⟩ := hspec _ _ (leach_num_ch_le hne)
  refine ⟨hlen, hsub, fun h1 => ?_⟩
  obtain ⟨x, hx⟩ := List.length_eq_one.mp h1
  have hxfil : x ∈ nodes.filter (fun n => n.alive) := by
    rw [hx]
    exact List.mem_singleton_self x
  have hxmem : x ∈ nodes := List.mem_of_mem_filter hxfil
  rw [hx] at hlen hsub
  have hnum : max 1 (((1 : ℕ)) / 10) = 1 := rfl
  simp only [List.length_singleton, hnum] at hlen hsub
  have hheads : sample_fn 1 [x] = [x] := by
    rcases List.subperm_singleton_iff.mp hsub with hnil | hone
    · rw [hnil] at hlen
      simp at hlen
    · exact hone
  have hround : leach dst sample_fn nodes packets =
      ((([x.id] : List ℕ).foldl (leach_body dst [x] packets) (nodes, [], 0))) := by
    unfold leach
    dsimp only
    rw [if_neg (by simpa [List.isEmpty_iff] using hne), hx]
    simp only [List.length_singleton, hnum, hheads, List.map_cons, List.map_nil]
  have hbody : leach_body dst [x] packets (nodes, [], 0) x.id =
      (debit_id nodes x.id (TX_COST * (dst x.pos BS_POS / 60)),
       [(x.pos, BS_POS)], packets) := by
    unfold leach_body
    rw [find_id_nodup hnd hxmem]
    dsimp only
    rw [if_pos (by simp)]
    simp
  rw [hx, hround]
  simp only [List.length_singleton, hnum, List.foldl_cons, List.foldl_nil, hbody]
  exact ⟨hheads, by simp, by simp⟩

/-- Witness for C6 on a concrete one-alive-node population. -/
theorem c6_leach_cluster_heads_witness :
    ((fun k (xs : List Node) => xs.take k)
      (max 1 ((([⟨0, (5, 6), 1, true⟩] : List Node).filter
        (fun n => n.alive)).length / 10))
      (([⟨0, (5, 6), 1, true⟩] : List Node).filter (fun n => n.alive))).length =
      max 1 ((([⟨0, (5, 6), 1, true⟩] : List Node).filter
        (fun n => n.alive)).length / 10) ∧
    List.Subperm
      ((fun k (xs : List Node) => xs.take k)
        (max 1 ((([⟨0, (5, 6), 1, true⟩] : List Node).filter
          (fun n => n.alive)).length / 10))
        (([⟨0, (5, 6), 1, true⟩] : List Node).filter (fun n => n.alive)))
      (([⟨0, (5, 6), 1, true⟩] : List Node).filter (fun n => n.alive)) ∧
    ((([⟨0, (5, 6), 1, true⟩] : List Node).filter
        (fun n => n.alive)).length = 1 →
      (fun k (xs : List Node) => xs.take k)
        (max 1 ((([⟨0, (5, 6), 1, true⟩] : List Node).filter
          (fun n => n.alive)).length / 10))
        (([⟨0, (5, 6), 1, true⟩] : List Node).filter (fun n => n.alive)) =
        ([⟨0, (5, 6), 1, true⟩] : List Node).filter (fun n => n.alive) ∧
      (leach (fun _ _ => 2) (fun k xs => xs.take k)
        [⟨0, (5, 6), 1, true⟩] 4).2.1 =
        (([⟨0, (5, 6), 1, true⟩] : List Node).filter
          (fun n => n.alive)).map (fun x => (x.pos, BS_POS)) ∧
      (leach (fun _ _ => 2) (fun k xs => xs.take k)
        [⟨0, (5, 6), 1, true⟩] 4).2.2 = 4) :=
  c6_leach_cluster_heads (fun _ _ => 2) (fun k xs => xs.take k)
    [⟨0, (5, 6), 1, true⟩] 4 take_sample_spec (by decide) (by decide)
